import Mathlib

/-!
Verification of the fergusson messaging subsystem: a shallow embedding of
the broker work queue (src/broker/bus.py), the Discord channel client
(src/channels/discord.py), and the history compaction engine
(src/agent/memory.py), with theorems settling the frozen claims.

Modelling conventions: strings manipulated character-by-character are
lists of characters; cooperative-async code is embedded as pure state
transformers plus an explicit trace of externally visible actions
(HTTP posts, sleeps, log lines, task cancellations); network responses
and other environment behaviour are supplied as oracle functions.
-/

namespace Fergusson

/-!
### Broker work queue (src/broker/bus.py)

The inbound queue is a Redis list under key "fergusson:inbound":
publish_inbound performs LPUSH (prepend at the head of the list) and
get_next_inbound performs BRPOP (blocking pop from the tail).  The Redis
list is modelled as a Lean list whose head is the LPUSH side; a BRPOP
that would block on the empty queue is modelled by the result none.
-/

/-- MessageBus.publish_inbound: LPUSH of the serialized message. -/
def publish_inbound {α : Type} (q : List α) (m : α) : List α := m :: q

/-- MessageBus.get_next_inbound: BRPOP — returns the tail element and the
remaining queue, or none when the queue is empty (the blocking case). -/
def get_next_inbound {α : Type} (q : List α) : Option (α × List α) :=
  match q.getLast? with
  | none => none
  | some m => some (m, q.dropLast)

/-- Publishing a whole list of messages in order. -/
def publishAll {α : Type} (q : List α) (ms : List α) : List α :=
  ms.foldl publish_inbound q

/-- Repeatedly consuming with get_next_inbound until the queue is empty
(fuel bounds the number of pops). -/
def drainGo {α : Type} : Nat → List α → List α
  | 0, _ => []
  | fuel+1, q =>
    match get_next_inbound q with
    | none => []
    | some (m, rest) => m :: drainGo fuel rest

/-- Full drain of the queue. -/
def drainAll {α : Type} (q : List α) : List α := drainGo q.length q

/-!
### Message chunking (src/channels/discord.py, _split_message)

pyIsSpace captures Python str.lstrip whitespace on the ASCII range;
rfindIdx is Python str.rfind restricted to a single character needle
(returning the last index, or none); rfindD maps the absent case to -1
exactly as Python does.
-/

def MAX_MESSAGE_LEN : Nat := 2000

def pyIsSpace (c : Char) : Bool :=
  c = ' ' || c = '\t' || c = '\n' || c = '\r' || c = '\x0b' || c = '\x0c'

/-- Python content.lstrip(). -/
def lstrip (s : List Char) : List Char := s.dropWhile pyIsSpace

/-- Python cut.rfind(c): index of the last occurrence of c. -/
def rfindIdx : List Char → Char → Option Nat
  | [], _ => none
  | x :: xs, c =>
    match rfindIdx xs c with
    | some n => some (n + 1)
    | none => if x = c then some 0 else none

/-- Python cut.rfind(c) with the -1 convention for a missing needle. -/
def rfindD (s : List Char) (c : Char) : Int :=
  match rfindIdx s c with
  | none => -1
  | some n => (n : Int)

/-- The cut position chosen by _split_message for one iteration: the last
newline if its index is positive, else the last space if its index is
positive, else a hard cut at max_len (the pos <= 0 fallbacks in the
source). -/
def pyCutPos (cut : List Char) (maxLen : Nat) : Nat :=
  if 0 < rfindD cut '\n' then (rfindD cut '\n').toNat
  else if 0 < rfindD cut ' ' then (rfindD cut ' ').toNat
  else maxLen

/-- The while loop of _split_message, with explicit fuel (the source loop
always terminates for max_len > 0 because every iteration removes at
least one character). -/
def splitGo (maxLen : Nat) : Nat → List Char → List (List Char)
  | 0, s => [s]
  | fuel+1, s =>
    if s = [] then []
    else if s.length ≤ maxLen then [s]
    else
      s.take (pyCutPos (s.take maxLen) maxLen) ::
        splitGo maxLen fuel (lstrip (s.drop (pyCutPos (s.take maxLen) maxLen)))

/-- _split_message(content, max_len): the source returns [] for empty
content, [content] when it already fits, and otherwise runs the loop. -/
def _split_message (maxLen : Nat) (s : List Char) : List (List Char) :=
  splitGo maxLen (s.length + 1) s

/-- Interleaving chunks with the whitespace runs trimmed at the cut
points: glue [c1, c2, ...] [w1, w2, ...] = c1 ++ w1 ++ c2 ++ w2 ++ ... -/
def glue : List (List Char) → List (List Char) → List Char
  | c :: cs, w :: ws => c ++ (w ++ glue cs ws)
  | _, _ => []

/-!
### Conversation store and compaction (src/agent/memory.py)

The Message and Summary records carry the fields used by memory.py
(the chat_id, validity-flag and Summary columns are referenced there
even though db/models.py in the snapshot lags behind).  The database is
a list of message rows plus a list of summary rows; SQL "ORDER BY
timestamp ASC" is modelled by a stable insertion sort on the timestamp,
and row identity is the primary key id.
-/

structure Message where
  id : Nat
  chat_id : String
  channel : String
  role : String
  content : String
  timestamp : Nat
  is_valid : Bool
deriving DecidableEq

structure Summary where
  chat_id : String
  content : String
  range_start_id : Nat
  range_end_id : Nat
deriving DecidableEq

structure DB where
  messages : List Message
  summaries : List Summary
deriving DecidableEq

/-- The WHERE clause Message.chat_id == chat_id, Message.is_valid == True. -/
def validPred (chat : String) (m : Message) : Bool :=
  m.chat_id == chat && m.is_valid

/-- All currently valid rows of the conversation, in table order. -/
def validFor (db : DB) (chat : String) : List Message :=
  db.messages.filter (validPred chat)

/-- select func.count() over the valid rows of the conversation. -/
def countValid (db : DB) (chat : String) : Nat := (validFor db chat).length

/-- Insert one row into a timestamp-ascending list (stable). -/
def insertByTs (m : Message) : List Message → List Message
  | [] => [m]
  | x :: xs => if m.timestamp ≤ x.timestamp then m :: x :: xs else x :: insertByTs m xs

/-- ORDER BY timestamp ASC as a stable insertion sort. -/
def sortByTs : List Message → List Message
  | [] => []
  | x :: xs => insertByTs x (sortByTs xs)

/-- The compaction batch: valid rows ordered by ascending timestamp,
LIMIT 13. -/
def compactBatch (db : DB) (chat : String) : List Message :=
  (sortByTs (validFor db chat)).take 13

/-- add_message: inserts a new row with is_valid=True and commits.  The
autoincrement id and the utcnow timestamp are passed explicitly. -/
def add_message (db : DB) (newId ts : Nat) (chat ch role content : String) : DB :=
  { db with messages := db.messages ++
      [{ id := newId, chat_id := chat, channel := ch, role := role,
         content := content, timestamp := ts, is_valid := true }] }

/-- Flip is_valid to False on every row whose primary key is in ids. -/
def invalidateIds (ids : List Nat) (ms : List Message) : List Message :=
  ms.map (fun m => if ids.contains m.id then { m with is_valid := false } else m)

/-- check_and_compact: if more than 26 valid rows exist for the chat,
summarize the oldest 13 of them, add the Summary row and flip the batch
invalid, in one commit. -/
def check_and_compact (db : DB) (chat : String) (summarize : List Message → String) : DB :=
  if 26 < countValid db chat then
    match compactBatch db chat with
    | [] => db
    | b :: bs =>
      { messages := invalidateIds ((b :: bs).map (fun m => m.id)) db.messages,
        summaries := db.summaries ++
          [{ chat_id := chat, content := summarize (b :: bs),
             range_start_id := b.id,
             range_end_id := ((b :: bs).getLast (List.cons_ne_nil b bs)).id }] }
  else db

/-- ORDER BY timestamp DESC. -/
def sortByTsDesc (ms : List Message) : List Message := (sortByTs ms).reverse

/-- The message selection of get_history: valid rows of the chat, newest
first, LIMIT limit. -/
def historyFetch (db : DB) (chat : String) (limit : Nat) : List Message :=
  (sortByTsDesc (validFor db chat)).take limit

/-!
Session staging model for the atomicity of check_and_compact: the ORM
session buffers the Summary insert and the validity flips; nothing is
visible until the single session.commit() at the end applies the staged
writes.  A crash before the commit leaves the store untouched.
-/

inductive WriteOp where
  | addSummary (s : Summary)
  | invalidate (ids : List Nat)
deriving DecidableEq

def applyWrite (db : DB) : WriteOp → DB
  | .addSummary s => { db with summaries := db.summaries ++ [s] }
  | .invalidate ids => { db with messages := invalidateIds ids db.messages }

def commitAll (db : DB) (ws : List WriteOp) : DB := ws.foldl applyWrite db

/-- The writes check_and_compact stages before its single commit: the
summarize call happens before anything is staged, and the Summary insert
and the flag flips are staged together. -/
def compactWrites (db : DB) (chat : String) (summarize : List Message → String) :
    List WriteOp :=
  if 26 < countValid db chat then
    match compactBatch db chat with
    | [] => []
    | b :: bs =>
      [ WriteOp.addSummary
          { chat_id := chat, content := summarize (b :: bs),
            range_start_id := b.id,
            range_end_id := ((b :: bs).getLast (List.cons_ne_nil b bs)).id },
        WriteOp.invalidate ((b :: bs).map (fun m => m.id)) ]
  else []

/-- Running the compaction with an explicit crash point: a crash before
the commit leaves the store as it was; otherwise the staged writes are
applied all at once. -/
def runCompact (db : DB) (chat : String) (summarize : List Message → String)
    (crashBeforeCommit : Bool) : DB :=
  if crashBeforeCommit then db else commitAll db (compactWrites db chat summarize)

/-- A 27-message conversation used to exercise the compaction theorems. -/
def sampleMsg (i : Nat) : Message :=
  { id := i, chat_id := "c", channel := "discord", role := "user",
    content := "x", timestamp := i, is_valid := true }

def sampleDB : DB := { messages := (List.range 27).map sampleMsg, summaries := [] }

def sampleSummarize : List Message → String := fun _ => "summary"

/-!
### Outbound delivery (src/channels/discord.py, send and _send_payload)

The HTTP layer is an oracle mapping the attempt number to the response
outcome: a 2xx success, a 429 carrying an optional retry_after, or any
other exception (connection error or raise_for_status).  Externally
visible actions are traced.
-/

inductive HttpResult where
  | ok
  | rateLimited (retryAfter : Option ℚ)
  | err
deriving DecidableEq

inductive Ev where
  | post (chunk : Nat)
  | sleep (d : ℚ)
  | logWarn
  | logError
  | cancelTyping (t : Nat)
deriving DecidableEq

/-- The for-attempt-in-range(3) loop of _send_payload, counting down the
remaining attempts; the oracle is shifted on recursion so rs 0 is always
the current attempt.  On 429 it logs, sleeps retry_after (default 1.0)
and retries; on any other failure it sleeps 1s and retries, except on
the final attempt where it logs the error; after the loop it returns
False. -/
def attemptLoop (i : Nat) : (Nat → HttpResult) → Nat → Bool × List Ev
  | _, 0 => (false, [])
  | rs, k+1 =>
    match rs 0 with
    | .ok => (true, [.post i])
    | .rateLimited ra =>
      ((attemptLoop i (fun a => rs (a+1)) k).1,
        .post i :: .logWarn :: .sleep (ra.getD 1) ::
          (attemptLoop i (fun a => rs (a+1)) k).2)
    | .err =>
      if k = 0 then (false, [.post i, .logError])
      else
        ((attemptLoop i (fun a => rs (a+1)) k).1,
          .post i :: .sleep 1 :: (attemptLoop i (fun a => rs (a+1)) k).2)

/-- _send_payload for chunk i: requires the HTTP client, then runs the
three-attempt loop.  Never raises: every exception is absorbed into the
Boolean result. -/
def _send_payload (httpInit : Bool) (i : Nat) (rs : Nat → HttpResult) :
    Bool × List Ev :=
  if httpInit then attemptLoop i rs 3 else (false, [])

/-- The chunk loop of send: deliver chunks in order, aborting the rest on
the first failed chunk. -/
def deliverChunks (rs : Nat → Nat → HttpResult) : Nat → List (List Char) → List Ev
  | _, [] => []
  | i, _c :: cs =>
    if (_send_payload true i (rs i)).1 then
      (_send_payload true i (rs i)).2 ++ deliverChunks rs (i+1) cs
    else (_send_payload true i (rs i)).2

structure OutboundMessage where
  chat_id : String
  content : List Char
  reply_to : Option String
  channel : String

/-- _stop_typing: pop the conversation's typing task from the map and
cancel it if present.  The dict is modelled as a function map. -/
def stop_typing (tasks : String → Option Nat) (chat : String) :
    (String → Option Nat) × List Ev :=
  match tasks chat with
  | none => (tasks, [])
  | some t => (fun c => if c = chat then none else tasks c, [Ev.cancelTyping t])

/-- DiscordChannel.send: the early return when the HTTP client is not
initialized happens before the try/finally, so it does not touch the
typing map; otherwise the chunks are delivered and the finally block
always runs _stop_typing. -/
def send (httpInit : Bool) (tasks : String → Option Nat) (msg : OutboundMessage)
    (rs : Nat → Nat → HttpResult) : (String → Option Nat) × List Ev :=
  if httpInit then
    ((stop_typing tasks msg.chat_id).1,
      deliverChunks rs 0 (_split_message MAX_MESSAGE_LEN msg.content) ++
        (stop_typing tasks msg.chat_id).2)
  else (tasks, [Ev.logWarn])

/-!
### Gateway session and reconnection (src/channels/discord.py)

A session is a list of received frames plus a flag saying whether the
socket iteration ended with an exception (abnormal closure) once the
frames are exhausted.  _gateway_loop breaks out on opcode 7 or 9;
_start_ingress reconnects, sleeping 5 seconds first only when the
session ended in an exception.
-/

structure Frame where
  op : Nat
  t : Option String
  s : Option Int
  heartbeatIntervalMs : Option ℚ
deriving DecidableEq

inductive GwExit where
  | brk
  | closed
  | err
deriving DecidableEq

/-- How _gateway_loop ends for a given frame sequence: opcode 7 or 9
breaks out of the loop (normal return), otherwise the socket iteration
ends either cleanly or with an exception. -/
def gatewayExit : List Frame → Bool → GwExit
  | [], e => if e then .err else .closed
  | f :: fs, e => if f.op = 7 ∨ f.op = 9 then .brk else gatewayExit fs e

inductive IngAct where
  | connect
  | sleep5
deriving DecidableEq

/-- The while-running loop of _start_ingress over a list of sessions:
each iteration connects; only an exceptional session end inserts the
5-second sleep before the next connection attempt. -/
def ingressTrace : List (List Frame × Bool) → List IngAct
  | [] => []
  | (fs, e) :: rest =>
    IngAct.connect ::
      (match gatewayExit fs e with
       | .err => IngAct.sleep5 :: ingressTrace rest
       | _ => ingressTrace rest)

def frame7 : Frame := { op := 7, t := none, s := none, heartbeatIntervalMs := none }

structure GwState where
  seq : Option Int
deriving DecidableEq

inductive GwAct where
  | startHeartbeat (intervalS : ℚ)
  | identify
  | dispatchMessage
  | breakLoop
deriving DecidableEq

/-- Processing of one gateway frame by _gateway_loop: the sequence number
is recorded whenever present, then the opcode is dispatched.  On HELLO
(op 10) the heartbeat task is started with heartbeat_interval (default
45000 ms) divided by 1000, then IDENTIFY is sent. -/
def stepFrame (st : GwState) (f : Frame) : GwState × List GwAct :=
  let st1 : GwState :=
    match f.s with
    | some n => { seq := some n }
    | none => st
  if f.op = 10 then
    (st1, [GwAct.startHeartbeat ((f.heartbeatIntervalMs.getD 45000) / 1000),
           GwAct.identify])
  else if f.op = 0 ∧ f.t = some "MESSAGE_CREATE" then (st1, [GwAct.dispatchMessage])
  else if f.op = 7 ∨ f.op = 9 then (st1, [GwAct.breakLoop])
  else (st1, [])

inductive HbAct where
  | beat (seq : Option Int)
  | sleepI (d : ℚ)
deriving DecidableEq

/-- The heartbeat task: while the session is alive (fuel ticks) it sends
a heartbeat carrying the sequence number seen at that tick, stops
immediately when a send fails, and otherwise sleeps the interval before
the next beat.  The oracles are shifted on recursion so index 0 is the
current tick. -/
def heartbeatTrace (interval : ℚ) (seqAt : Nat → Option Int) (sendOk : Nat → Bool) :
    Nat → List HbAct
  | 0 => []
  | k+1 =>
    HbAct.beat (seqAt 0) ::
      (if sendOk 0 then
        HbAct.sleepI interval ::
          heartbeatTrace interval (fun j => seqAt (j+1)) (fun j => sendOk (j+1)) k
      else [])

/-!
### Inbound message conversion (src/channels/discord.py,
_handle_message_create)

The payload is pre-decoded: authorId and channelId are the str(...)
results (empty when the key is missing), content is the text or empty.
Attachment downloads are an oracle indexed by attachment position.
-/

def MAX_ATTACHMENT_BYTES : Nat := 20 * 1024 * 1024

structure Attachment where
  url : Option String
  filename : Option String
  size : Option Nat
  attId : Option String
deriving DecidableEq

structure DiscordPayload where
  authorBot : Bool
  authorId : String
  channelId : String
  content : String
  username : String
  attachments : List Attachment
deriving DecidableEq

/-- The media file path chosen for a downloaded attachment. -/
def mediaPath (a : Attachment) : String :=
  "workspace/media/" ++ a.attId.getD "file" ++ "_" ++
    (a.filename.getD "attachment").replace "/" "_"

/-- What one attachment contributes: a list of content parts and a list
of media paths.  Missing url (or missing HTTP client) skips it silently;
an oversized attachment degrades to a placeholder; a failed download
degrades to a placeholder. -/
def attachmentResult (httpInit : Bool) (downloadOk : Bool) (a : Attachment) :
    List String × List String :=
  match a.url with
  | none => ([], [])
  | some _ =>
    if httpInit = false then ([], [])
    else if MAX_ATTACHMENT_BYTES < a.size.getD 0 then
      (["[attachment: " ++ a.filename.getD "attachment" ++ " - too large]"], [])
    else if downloadOk then
      (["[attachment: " ++ mediaPath a ++ "]"], [mediaPath a])
    else
      (["[attachment: " ++ a.filename.getD "attachment" ++ " - download failed]"], [])

structure InboundMessage where
  sender_id : String
  username : String
  chat_id : String
  content : String
  media : List String
  channel : String
deriving DecidableEq

/-- _handle_message_create: drop bot authors and events missing either
identifier; otherwise assemble the content parts (text plus one entry
per attachment) and publish an InboundMessage whose content falls back
to the placeholder when nothing remains. -/
def _handle_message_create (httpInit : Bool) (downloadOk : Nat → Bool)
    (p : DiscordPayload) : Option InboundMessage :=
  if p.authorBot then none
  else if p.authorId = "" ∨ p.channelId = "" then none
  else
    let baseParts := if p.content = "" then [] else [p.content]
    let results := p.attachments.enum.map
      (fun ia => attachmentResult httpInit (downloadOk ia.1) ia.2)
    let parts := baseParts ++ (results.map Prod.fst).flatten
    let joined := String.intercalate "\n" (parts.filter (fun s => s ≠ ""))
    some { sender_id := p.authorId, username := p.username, chat_id := p.channelId,
           content := if joined = "" then "[empty message]" else joined,
           media := (results.map Prod.snd).flatten, channel := "discord" }

/-- Concrete inputs used by witnesses and counterexamples. -/
def tasks1 : String → Option Nat := fun c => if c = "c1" then some 5 else none

def msg1 : OutboundMessage :=
  { chat_id := "c1", content := ['h', 'i'], reply_to := none, channel := "discord" }

def rsOk : Nat → Nat → HttpResult := fun _ _ => HttpResult.ok

def payload0 : DiscordPayload :=
  { authorBot := false, authorId := "u", channelId := "ch", content := "",
    username := "alice", attachments := [] }

/-!
### Theorems: broker work queue
-/

theorem get_next_inbound_concat {α : Type} (ys : List α) (y : α) :
    get_next_inbound (ys ++ [y]) = some (y, ys) := by
  simp [get_next_inbound]

theorem drainGo_eq_reverse {α : Type} :
    ∀ (fuel : Nat) (q : List α), q.length ≤ fuel → drainGo fuel q = q.reverse := by
  intro fuel
  induction fuel with
  | zero =>
    intro q hq
    have : q = [] := List.eq_nil_of_length_eq_zero (Nat.le_zero.mp hq)
    simp [this, drainGo]
  | succ n ih =>
    intro q hq
    induction q using List.reverseRecOn with
    | nil => simp [drainGo, get_next_inbound]
    | append_singleton ys y _ =>
      have hys : ys.length ≤ n := by
        have := hq
        simp [List.length_append] at this
        omega
      simp [drainGo, get_next_inbound_concat, ih ys hys]

theorem drainAll_eq_reverse {α : Type} (q : List α) : drainAll q = q.reverse :=
  drainGo_eq_reverse q.length q (Nat.le_refl _)

theorem publishAll_eq {α : Type} :
    ∀ (ms : List α) (q : List α), publishAll q ms = ms.reverse ++ q := by
  intro ms
  induction ms with
  | nil => intro q; simp [publishAll]
  | cons m ms ih =>
    intro q
    have h : publishAll q (m :: ms) = publishAll (m :: q) ms := rfl
    rw [h, ih (m :: q)]
    simp [publish_inbound]

/-- C1: for every sequence of messages passed to publish_inbound,
successive calls to get_next_inbound return exactly those messages, each
exactly once, in publish (FIFO) order; get_next_inbound blocks (returns
none) on the empty queue and removes the item it returns. -/
theorem C1_inbound_fifo :
    (∀ ms : List String, drainAll (publishAll [] ms) = ms) ∧
    (∀ (q ms : List String), drainAll (publishAll q ms) = drainAll q ++ ms) ∧
    get_next_inbound ([] : List String) = none ∧
    (∀ (q rest : List String) (m : String),
      get_next_inbound q = some (m, rest) → q = rest ++ [m]) := by
  refine ⟨?_, ?_, rfl, ?_⟩
  · intro ms
    rw [publishAll_eq, drainAll_eq_reverse]
    simp
  · intro q ms
    rw [publishAll_eq, drainAll_eq_reverse, drainAll_eq_reverse]
    simp
  · intro q rest m h
    induction q using List.reverseRecOn with
    | nil => simp [get_next_inbound] at h
    | append_singleton ys y _ =>
      rw [get_next_inbound_concat] at h
      obtain ⟨h1, h2⟩ := Prod.mk.injEq .. ▸ Option.some.injEq .. ▸ h
      simp at h
      rw [← h.1, ← h.2]

/-- Witness for C1: the nested removal clause applied at the concrete
queue obtained by publishing "a" then "b". -/
theorem C1_inbound_fifo_witness : (["b", "a"] : List String) = ["b"] ++ ["a"] :=
  C1_inbound_fifo.2.2.2 ["b", "a"] ["b"] "a" rfl

/-!
### Theorems: message chunking
-/

theorem rfindIdx_lt_length {s : List Char} {c : Char} {n : Nat}
    (h : rfindIdx s c = some n) : n < s.length := by
  induction s generalizing n with
  | nil => simp [rfindIdx] at h
  | cons x xs ih =>
    simp only [rfindIdx] at h
    cases hx : rfindIdx xs c with
    | some m =>
      rw [hx] at h
      have hm := ih hx
      simp only [Option.some.injEq] at h
      simp only [List.length_cons]
      omega
    | none =>
      rw [hx] at h
      by_cases hxc : x = c
      · subst hxc
        simp at h
        simp only [List.length_cons]
        omega
      · simp [hxc] at h

theorem rfindIdx_eq_none_of_not_mem {s : List Char} {c : Char}
    (h : c ∉ s) : rfindIdx s c = none := by
  induction s with
  | nil => rfl
  | cons x xs ih =>
    simp at h
    simp [rfindIdx, ih h.2, Ne.symm h.1]

theorem rfindIdx_append_cons (l1 l2 : List Char) (c : Char)
    (h : rfindIdx l2 c = none) :
    rfindIdx (l1 ++ c :: l2) c = some l1.length := by
  induction l1 with
  | nil => simp [rfindIdx, h]
  | cons x xs ih => simp [rfindIdx, ih]

theorem pyCutPos_le {cut : List Char} {maxLen : Nat}
    (hcut : cut.length ≤ maxLen) : pyCutPos cut maxLen ≤ maxLen := by
  unfold pyCutPos
  split
  · next h =>
    cases hn : rfindIdx cut '\n' with
    | none => simp [rfindD, hn] at h
    | some n =>
      have := rfindIdx_lt_length hn
      simp [rfindD, hn]
      omega
  · split
    · next h =>
      cases hn : rfindIdx cut ' ' with
      | none => simp [rfindD, hn] at h
      | some n =>
        have := rfindIdx_lt_length hn
        simp [rfindD, hn]
        omega
    · exact Nat.le_refl _

theorem pyCutPos_pos {cut : List Char} {maxLen : Nat}
    (hm : 0 < maxLen) : 0 < pyCutPos cut maxLen := by
  unfold pyCutPos
  split
  · next h =>
    cases hn : rfindIdx cut '\n' with
    | none => simp [rfindD, hn] at h
    | some n =>
      simp [rfindD, hn] at h ⊢
      omega
  · split
    · next h =>
      cases hn : rfindIdx cut ' ' with
      | none => simp [rfindD, hn] at h
      | some n =>
        simp [rfindD, hn] at h ⊢
        omega
    · exact hm

theorem lstrip_length_le (s : List Char) : (lstrip s).length ≤ s.length := by
  induction s with
  | nil => simp [lstrip]
  | cons x xs ih =>
    by_cases hx : pyIsSpace x
    · simp only [lstrip, List.dropWhile_cons, hx, if_pos] at *
      simp only [List.length_cons]
      omega
    · simp [lstrip, List.dropWhile_cons, hx]

theorem splitGo_chunk_le (maxLen : Nat) :
    ∀ (fuel : Nat) (s : List Char), s.length < fuel → 0 < maxLen →
      ∀ c ∈ splitGo maxLen fuel s, c.length ≤ maxLen := by
  intro fuel
  induction fuel with
  | zero => intro s hs; omega
  | succ n ih =>
    intro s hs hm c hc
    by_cases hnil : s = []
    · simp [splitGo, hnil] at hc
    · by_cases hfit : s.length ≤ maxLen
      · simp [splitGo, hnil, hfit] at hc
        subst hc; exact hfit
      · simp only [splitGo, if_neg hnil, if_neg hfit, List.mem_cons] at hc
        rcases hc with hc | hc
        · subst hc
          have hcutlen : (s.take maxLen).length ≤ maxLen := by
            simp [List.length_take]
          have hle := pyCutPos_le hcutlen
          simp [List.length_take]
          omega
        · have hpos := @pyCutPos_pos (s.take maxLen) maxLen hm
          have hlen : (lstrip (s.drop (pyCutPos (s.take maxLen) maxLen))).length < n := by
            have h1 := lstrip_length_le (s.drop (pyCutPos (s.take maxLen) maxLen))
            have h2 : (s.drop (pyCutPos (s.take maxLen) maxLen)).length =
                s.length - pyCutPos (s.take maxLen) maxLen := by
              simp [List.length_drop]
            omega
          exact ih _ hlen hm c hc

theorem splitGo_reconstruct (maxLen : Nat) :
    ∀ (fuel : Nat) (s : List Char), s.length < fuel → 0 < maxLen →
      ∃ ws : List (List Char),
        ws.length = (splitGo maxLen fuel s).length ∧
        (∀ w ∈ ws, ∀ ch ∈ w, pyIsSpace ch = true) ∧
        glue (splitGo maxLen fuel s) ws = s := by
  intro fuel
  induction fuel with
  | zero => intro s hs; omega
  | succ n ih =>
    intro s hs hm
    by_cases hnil : s = []
    · exact ⟨[], by simp [splitGo, hnil, glue]⟩
    · by_cases hfit : s.length ≤ maxLen
      · refine ⟨[[]], ?_⟩
        simp [splitGo, hnil, hfit, glue]
      · have hpos := @pyCutPos_pos (s.take maxLen) maxLen hm
        set pos := pyCutPos (s.take maxLen) maxLen with hposdef
        have hlen : (lstrip (s.drop pos)).length < n := by
          have h1 := lstrip_length_le (s.drop pos)
          have h2 : (s.drop pos).length = s.length - pos := by
            simp [List.length_drop]
          omega
        obtain ⟨ws, hws1, hws2, hws3⟩ := ih (lstrip (s.drop pos)) hlen hm
        refine ⟨(s.drop pos).takeWhile pyIsSpace :: ws, ?_, ?_, ?_⟩
        · simp [splitGo, hnil, hfit, hws1, hposdef]
        · intro w hw ch hch
          rcases List.mem_cons.mp hw with hw | hw
          · subst hw
            exact List.mem_takeWhile_imp hch
          · exact hws2 w hw ch hch
        · simp only [splitGo, if_neg hnil, if_neg hfit, glue, ← hposdef]
          rw [hws3]
          have hsplit : (s.drop pos).takeWhile pyIsSpace ++ lstrip (s.drop pos) =
              s.drop pos := by
            simp [lstrip, List.takeWhile_append_dropWhile]
          rw [hsplit, List.take_append_drop]

theorem splitGo_step (maxLen n : Nat) (s : List Char)
    (hlen : maxLen < s.length) :
    splitGo maxLen (n+1) s =
      s.take (pyCutPos (s.take maxLen) maxLen) ::
        splitGo maxLen n (lstrip (s.drop (pyCutPos (s.take maxLen) maxLen))) := by
  have hnil : s ≠ [] := by
    intro h
    subst h
    simp at hlen
  simp [splitGo, hnil, Nat.not_le.mpr hlen]

theorem splitGo_small (maxLen n : Nat) (s : List Char)
    (hnil : s ≠ []) (hfit : s.length ≤ maxLen) :
    splitGo maxLen (n+1) s = [s] := by
  simp [splitGo, hnil, hfit]

theorem pyCutPos_no_ws {cut : List Char} {maxLen : Nat}
    (h : ∀ c ∈ cut, pyIsSpace c = false) : pyCutPos cut maxLen = maxLen := by
  have hn : rfindIdx cut '\n' = none := by
    apply rfindIdx_eq_none_of_not_mem
    intro hc
    have h1 := h _ hc
    have h2 : pyIsSpace '\n' = true := by decide
    simp [h1] at h2
  have hs : rfindIdx cut ' ' = none := by
    apply rfindIdx_eq_none_of_not_mem
    intro hc
    have h1 := h _ hc
    have h2 : pyIsSpace ' ' = true := by decide
    simp [h1] at h2
  simp [pyCutPos, rfindD, hn, hs]

theorem pyCutPos_newline {cut : List Char} {maxLen p : Nat}
    (h : rfindIdx cut '\n' = some p) (hp : 0 < p) :
    pyCutPos cut maxLen = p := by
  have hcast : (0 : Int) < (p : Int) := by exact_mod_cast hp
  simp [pyCutPos, rfindD, h, hcast]

theorem lstrip_no_head_ws {s : List Char} (h : ∀ c ∈ s, pyIsSpace c = false) :
    lstrip s = s := by
  cases s with
  | nil => rfl
  | cons x xs =>
    have hx := h x (by simp)
    simp [lstrip, List.dropWhile_cons, hx]

theorem replicate_no_ws (k : Nat) (a : Char) (ha : pyIsSpace a = false) :
    ∀ c ∈ List.replicate k a, pyIsSpace c = false := by
  intro c hc
  have := List.eq_of_mem_replicate hc
  subst this
  exact ha

theorem replicate_take (a : Char) :
    ∀ (n k : Nat), (List.replicate k a).take n = List.replicate (min n k) a := by
  intro n
  induction n with
  | zero => intro k; simp
  | succ m ih =>
    intro k
    cases k with
    | zero => simp
    | succ j =>
      simp only [List.replicate_succ, List.take_succ_cons, ih j]
      rw [Nat.succ_min_succ]
      simp [List.replicate_succ]

theorem replicate_drop (a : Char) :
    ∀ (n k : Nat), (List.replicate k a).drop n = List.replicate (k - n) a := by
  intro n
  induction n with
  | zero => intro k; simp
  | succ m ih =>
    intro k
    cases k with
    | zero => simp
    | succ j =>
      simp only [List.replicate_succ, List.drop_succ_cons, ih j]
      congr 1
      omega

theorem splitGo_hard_step (n k : Nat) (a : Char) (ha : pyIsSpace a = false)
    (hk : 2000 < k) :
    splitGo 2000 (n+1) (List.replicate k a) =
      List.replicate 2000 a :: splitGo 2000 n (List.replicate (k - 2000) a) := by
  have hlen : 2000 < (List.replicate k a).length := by
    simp [List.length_replicate]
    omega
  rw [splitGo_step 2000 n _ hlen]
  have hcut : (List.replicate k a).take 2000 = List.replicate 2000 a := by
    rw [replicate_take]
    congr 1
    omega
  rw [hcut, pyCutPos_no_ws (replicate_no_ws 2000 a ha)]
  rw [hcut, replicate_drop,
    lstrip_no_head_ws (replicate_no_ws (k - 2000) a ha)]

theorem split_4500 :
    _split_message 2000 (List.replicate 4500 'a') =
      [List.replicate 2000 'a', List.replicate 2000 'a', List.replicate 500 'a'] := by
  have ha : pyIsSpace 'a' = false := by decide
  unfold _split_message
  rw [List.length_replicate]
  rw [splitGo_hard_step 4500 4500 'a' ha (by omega)]
  rw [show (4500 - 2000 : Nat) = 2500 from rfl]
  rw [show (4500 : Nat) = 4499 + 1 from rfl]
  rw [splitGo_hard_step 4499 2500 'a' ha (by omega)]
  rw [show (2500 - 2000 : Nat) = 500 from rfl]
  rw [show (4499 : Nat) = 4498 + 1 from rfl]
  rw [splitGo_small 2000 4498 _ ?_ ?_]
  · intro h
    have h2 := congrArg List.length h
    rw [List.length_replicate, List.length_nil] at h2
    omega
  · rw [List.length_replicate]
    omega

theorem split_newline_1800 :
    _split_message 2000 (List.replicate 1800 'a' ++ '\n' :: List.replicate 399 'b') =
      [List.replicate 1800 'a', List.replicate 399 'b'] := by
  have ha : pyIsSpace 'a' = false := by decide
  have hb : pyIsSpace 'b' = false := by decide
  set s : List Char := List.replicate 1800 'a' ++ '\n' :: List.replicate 399 'b'
    with hs
  have hslen : s.length = 2200 := by
    rw [hs, List.length_append, List.length_cons, List.length_replicate,
      List.length_replicate]
  unfold _split_message
  rw [hslen]
  rw [splitGo_step 2000 2200 s (by rw [hslen]; omega)]
  have hcut : s.take 2000 = List.replicate 1800 'a' ++ '\n' :: List.replicate 199 'b' := by
    rw [hs, List.take_append_eq_append_take]
    rw [List.take_of_length_le (by rw [List.length_replicate]; omega)]
    rw [List.length_replicate]
    rw [show (2000 - 1800 : Nat) = 199 + 1 from rfl]
    rw [List.take_succ_cons, replicate_take]
    rw [show min 199 399 = 199 from rfl]
  have hfind : rfindIdx (s.take 2000) '\n' = some 1800 := by
    rw [hcut]
    have hnb : rfindIdx (List.replicate 199 'b') '\n' = none := by
      apply rfindIdx_eq_none_of_not_mem
      intro hc
      have hbc := List.eq_of_mem_replicate hc
      exact absurd hbc (by decide)
    rw [rfindIdx_append_cons _ _ _ hnb, List.length_replicate]
  have hpos : pyCutPos (s.take 2000) 2000 = 1800 :=
    pyCutPos_newline hfind (by omega)
  rw [hpos]
  have htake : s.take 1800 = List.replicate 1800 'a' := by
    rw [hs, List.take_append_eq_append_take]
    rw [List.take_of_length_le (by rw [List.length_replicate])]
    rw [List.length_replicate, Nat.sub_self, List.take_zero, List.append_nil]
  have hdrop : s.drop 1800 = '\n' :: List.replicate 399 'b' := by
    rw [hs, List.drop_append_eq_append_drop]
    rw [List.drop_of_length_le (by rw [List.length_replicate])]
    rw [List.length_replicate, Nat.sub_self, List.drop_zero, List.nil_append]
  rw [htake, hdrop]
  have hstrip : lstrip ('\n' :: List.replicate 399 'b') = List.replicate 399 'b' := by
    have hnl : pyIsSpace '\n' = true := by decide
    simp only [lstrip, List.dropWhile_cons, hnl, if_pos]
    exact lstrip_no_head_ws (replicate_no_ws 399 'b' hb)
  rw [hstrip]
  rw [show (2200 : Nat) = 2199 + 1 from rfl]
  rw [splitGo_small 2000 2199 _ ?_ ?_]
  · intro h
    have h2 := congrArg List.length h
    rw [List.length_replicate, List.length_nil] at h2
    omega
  · rw [List.length_replicate]
    omega

/-- C2: _split_message returns chunks each of length at most 2000, the
cut at each step is the last newline within the limit, else the last
space, else a hard cut (pyCutPos, part of the definition), and
concatenating the chunks with the whitespace trimmed at cut points
re-inserted reconstructs the original string; a 4500-character string
with no newlines splits into exactly 3 chunks, and a 2200-character
string with a newline at position 1800 splits at that newline, not at
position 2000. -/
theorem C2_split_message_spec :
    (∀ s : List Char, ∀ c ∈ _split_message 2000 s, c.length ≤ 2000) ∧
    (∀ s : List Char, ∃ ws : List (List Char),
      ws.length = (_split_message 2000 s).length ∧
      (∀ w ∈ ws, ∀ ch ∈ w, pyIsSpace ch = true) ∧
      glue (_split_message 2000 s) ws = s) ∧
    _split_message 2000 (List.replicate 4500 'a') =
      [List.replicate 2000 'a', List.replicate 2000 'a', List.replicate 500 'a'] ∧
    _split_message 2000 (List.replicate 1800 'a' ++ '\n' :: List.replicate 399 'b') =
      [List.replicate 1800 'a', List.replicate 399 'b'] := by
  refine ⟨?_, ?_, split_4500, split_newline_1800⟩
  · intro s
    exact splitGo_chunk_le 2000 (s.length + 1) s (Nat.lt_succ_self _) (by omega)
  · intro s
    exact splitGo_reconstruct 2000 (s.length + 1) s (Nat.lt_succ_self _) (by omega)

/-- Witness for C2: the chunk-length clause applied to a concrete one
character message. -/
theorem C2_split_message_spec_witness : (['h'] : List Char).length ≤ 2000 :=
  C2_split_message_spec.1 ['h'] ['h'] (by simp [_split_message, splitGo])

/-!
### Theorems: compaction engine
-/

theorem insertByTs_of_forall_le {m : Message} {l : List Message}
    (h : ∀ y ∈ l, m.timestamp ≤ y.timestamp) : insertByTs m l = m :: l := by
  cases l with
  | nil => rfl
  | cons x xs => simp [insertByTs, h x (by simp)]

theorem sortByTs_eq_of_sorted :
    ∀ {l : List Message},
      l.Pairwise (fun a b => a.timestamp < b.timestamp) → sortByTs l = l := by
  intro l h
  induction l with
  | nil => rfl
  | cons x xs ih =>
    have hx := (List.pairwise_cons.mp h).1
    have hxs := (List.pairwise_cons.mp h).2
    show insertByTs x (sortByTs xs) = x :: xs
    rw [ih hxs]
    exact insertByTs_of_forall_le (fun y hy => le_of_lt (hx y hy))

theorem mem_insertByTs {a m : Message} :
    ∀ {l : List Message}, a ∈ insertByTs m l ↔ a = m ∨ a ∈ l := by
  intro l
  induction l with
  | nil => simp [insertByTs]
  | cons x xs ih =>
    by_cases hle : m.timestamp ≤ x.timestamp
    · simp [insertByTs, hle]
    · simp [insertByTs, hle, ih]
      tauto

theorem mem_sortByTs {a : Message} :
    ∀ {l : List Message}, a ∈ sortByTs l ↔ a ∈ l := by
  intro l
  induction l with
  | nil => simp [sortByTs]
  | cons x xs ih =>
    show a ∈ insertByTs x (sortByTs xs) ↔ _
    rw [mem_insertByTs]
    simp [ih]

theorem check_and_compact_noop {db : DB} {chat : String}
    (summarize : List Message → String) (h : countValid db chat ≤ 26) :
    check_and_compact db chat summarize = db := by
  simp [check_and_compact, Nat.not_lt.mpr h]

theorem compactBatch_eq_of_sorted {db : DB} {chat : String}
    (hsorted : db.messages.Pairwise (fun a b => a.timestamp < b.timestamp)) :
    compactBatch db chat = (validFor db chat).take 13 := by
  have hsub : (validFor db chat).Sublist db.messages := List.filter_sublist _
  have hp : (validFor db chat).Pairwise (fun a b => a.timestamp < b.timestamp) :=
    List.Pairwise.sublist hsub hsorted
  unfold compactBatch
  rw [sortByTs_eq_of_sorted hp]

theorem contains_iff_mem {ids : List Nat} {n : Nat} : ids.contains n = true ↔ n ∈ ids := by
  simp [List.contains, List.elem_eq_mem]

theorem countP_split (p q : Message → Bool) :
    ∀ l : List Message,
      l.countP (fun a => p a && q a) + l.countP (fun a => p a && !q a) = l.countP p := by
  intro l
  induction l with
  | nil => simp
  | cons x xs ih =>
    simp only [List.countP_cons]
    cases hp : p x <;> cases hq : q x <;> simp [hp, hq] <;> omega

theorem countP_invalidate (chat : String) (ids : List Nat) (l : List Message) :
    (invalidateIds ids l).countP (validPred chat) =
      l.countP (fun m => validPred chat m && !(ids.contains m.id)) := by
  unfold invalidateIds
  rw [List.countP_map]
  apply List.countP_congr
  intro m _
  by_cases hm : m.id ∈ ids
  · simp [Function.comp, validPred, contains_iff_mem, hm]
  · simp [Function.comp, validPred, contains_iff_mem, hm]

theorem filter_take_13 (chat : String) (l : List Message)
    (hnodup : (l.map Message.id).Nodup) :
    (l.filter (validPred chat)).filter
        (fun m => (((l.filter (validPred chat)).take 13).map
          (fun m => m.id)).contains m.id) =
      (l.filter (validPred chat)).take 13 := by
  have hFnodup : ((l.filter (validPred chat)).map Message.id).Nodup :=
    List.Nodup.sublist (List.Sublist.map _ (List.filter_sublist _)) hnodup
  have key : ∀ ids : List Nat,
      ids = ((l.filter (validPred chat)).take 13).map (fun m => m.id) →
      (l.filter (validPred chat)).filter (fun m => ids.contains m.id) =
        (l.filter (validPred chat)).take 13 := by
    intro ids hids
    conv_lhs => rw [show l.filter (validPred chat) =
      (l.filter (validPred chat)).take 13 ++ (l.filter (validPred chat)).drop 13
      from (List.take_append_drop 13 _).symm]
    rw [List.filter_append]
    have h1 : ((l.filter (validPred chat)).take 13).filter
        (fun m => ids.contains m.id) = (l.filter (validPred chat)).take 13 := by
      rw [List.filter_eq_self]
      intro b hb
      rw [hids]
      exact contains_iff_mem.mpr (List.mem_map.mpr ⟨b, hb, rfl⟩)
    have h2 : ((l.filter (validPred chat)).drop 13).filter
        (fun m => ids.contains m.id) = [] := by
      rw [List.filter_eq_nil_iff]
      intro r hr hcon
      rw [hids] at hcon
      obtain ⟨b, hb, hid⟩ := List.mem_map.mp (contains_iff_mem.mp hcon)
      have hmapsplit : (l.filter (validPred chat)).map Message.id =
          ((l.filter (validPred chat)).take 13).map Message.id ++
            ((l.filter (validPred chat)).drop 13).map Message.id := by
        rw [← List.map_append, List.take_append_drop]
      rw [hmapsplit] at hFnodup
      have hdisj := (List.nodup_append.mp hFnodup).2.2
      exact hdisj (List.mem_map.mpr ⟨b, hb, hid⟩) (List.mem_map.mpr ⟨r, hr, rfl⟩)
    rw [h1, h2, List.append_nil]
  exact key _ rfl

theorem countP_sub (P C : Message → Bool) (l : List Message)
    (h13 : l.countP (fun m => P m && C m) = 13) :
    l.countP (fun m => P m && !(C m)) = l.countP P - 13 := by
  have hsplit := countP_split P C l
  omega

theorem countValid_after_invalidate (db : DB) (chat : String)
    (hnodup : (db.messages.map Message.id).Nodup)
    (h27 : 26 < countValid db chat) :
    ((invalidateIds ((((db.messages.filter (validPred chat))).take 13).map
        (fun m => m.id)) db.messages).filter (validPred chat)).length =
      countValid db chat - 13 := by
  rw [← List.countP_eq_length_filter, countP_invalidate]
  have hcv : db.messages.countP (validPred chat) = countValid db chat := by
    unfold countValid validFor
    rw [List.countP_eq_length_filter]
  rw [← hcv]
  apply countP_sub
  have hcomm : (fun m => validPred chat m &&
      ((((db.messages.filter (validPred chat))).take 13).map
        (fun m => m.id)).contains m.id) =
      (fun m => ((((db.messages.filter (validPred chat))).take 13).map
        (fun m => m.id)).contains m.id && validPred chat m) := by
    funext m
    exact Bool.and_comm _ _
  rw [hcomm, List.countP_eq_length_filter, ← List.filter_filter,
    filter_take_13 chat db.messages hnodup, List.length_take]
  have hlen : (db.messages.filter (validPred chat)).length = countValid db chat := rfl
  omega

/-- C3: check_and_compact is a no-op when at most 26 valid turns exist;
above 26 it selects exactly the 13 oldest valid turns in ascending
timestamp order, appends one summary covering that block id range,
flips exactly those 13 turns invalid, and the valid count drops by 13;
a 27-valid-turn conversation ends with 14 valid turns and an immediately
repeated call changes nothing.  Hypotheses: rows are strictly ordered by
timestamp and have distinct primary keys, as the database guarantees. -/
theorem C3_compaction_threshold (db : DB) (chat : String)
    (summarize : List Message → String)
    (hsorted : db.messages.Pairwise (fun a b => a.timestamp < b.timestamp))
    (hnodup : (db.messages.map Message.id).Nodup) :
    (countValid db chat ≤ 26 → check_and_compact db chat summarize = db) ∧
    (26 < countValid db chat →
      compactBatch db chat = (validFor db chat).take 13 ∧
      (compactBatch db chat).length = 13 ∧
      (∀ b bs, compactBatch db chat = b :: bs →
        check_and_compact db chat summarize =
          { messages := invalidateIds ((b :: bs).map (fun m => m.id)) db.messages,
            summaries := db.summaries ++
              [{ chat_id := chat, content := summarize (b :: bs),
                 range_start_id := b.id,
                 range_end_id := ((b :: bs).getLast (List.cons_ne_nil b bs)).id }] }) ∧
      countValid (check_and_compact db chat summarize) chat =
        countValid db chat - 13) ∧
    (countValid db chat = 27 →
      countValid (check_and_compact db chat summarize) chat = 14 ∧
      check_and_compact (check_and_compact db chat summarize) chat summarize =
        check_and_compact db chat summarize) := by
  have hbatch := @compactBatch_eq_of_sorted db chat hsorted
  have hmain : 26 < countValid db chat →
      (compactBatch db chat).length = 13 ∧
      countValid (check_and_compact db chat summarize) chat =
        countValid db chat - 13 := by
    intro h26
    have hlen13 : (compactBatch db chat).length = 13 := by
      rw [hbatch, List.length_take]
      have : (validFor db chat).length = countValid db chat := rfl
      omega
    refine ⟨hlen13, ?_⟩
    cases hb : compactBatch db chat with
    | nil => rw [hb] at hlen13; simp at hlen13
    | cons b bs =>
      have hrun : check_and_compact db chat summarize =
          { messages := invalidateIds ((b :: bs).map (fun m => m.id)) db.messages,
            summaries := db.summaries ++
              [{ chat_id := chat, content := summarize (b :: bs),
                 range_start_id := b.id,
                 range_end_id := ((b :: bs).getLast (List.cons_ne_nil b bs)).id }] } := by
        rw [check_and_compact, if_pos h26, hb]
      rw [hrun]
      have hids : (b :: bs).map (fun m => m.id) =
          ((validFor db chat).take 13).map (fun m => m.id) := by
        rw [← hb, hbatch]
      rw [hids]
      exact countValid_after_invalidate db chat hnodup h26
  refine ⟨fun h => check_and_compact_noop summarize h, ?_, ?_⟩
  · intro h26
    obtain ⟨hlen13, hafter⟩ := hmain h26
    refine ⟨hbatch, hlen13, ?_, hafter⟩
    intro b bs hb
    rw [check_and_compact, if_pos h26, hb]
  · intro h27
    have h26 : 26 < countValid db chat := by omega
    obtain ⟨_, hafter⟩ := hmain h26
    have h14 : countValid (check_and_compact db chat summarize) chat = 14 := by
      omega
    exact ⟨h14, check_and_compact_noop summarize (by omega)⟩

/-- Witness for C3: the sample 27-turn conversation compacts down to 14
valid turns. -/
theorem C3_compaction_threshold_witness :
    countValid (check_and_compact sampleDB "c" sampleSummarize) "c" = 14 :=
  ((C3_compaction_threshold sampleDB "c" sampleSummarize (by decide)
    (by decide)).2.2 (by decide)).1

theorem commitAll_pair (db : DB) (s : Summary) (ids : List Nat) :
    commitAll db [WriteOp.addSummary s, WriteOp.invalidate ids] =
      { messages := invalidateIds ids db.messages,
        summaries := db.summaries ++ [s] } := rfl

/-- C4: the summary insert and the batch validity flips are staged in the
same unit of work and become visible only at the single commit: a crash
at any point before the commit leaves the store exactly as it was
(neither the summary nor any flipped flag is visible), and the committed
result is the all-at-once application of both staged writes. -/
theorem C4_compaction_atomic :
    ∀ (db : DB) (chat : String) (summarize : List Message → String),
      runCompact db chat summarize true = db ∧
      runCompact db chat summarize false = check_and_compact db chat summarize ∧
      (check_and_compact db chat summarize = db ∨
        ∃ (s : Summary) (ids : List Nat), check_and_compact db chat summarize =
          commitAll db [WriteOp.addSummary s, WriteOp.invalidate ids]) := by
  intro db chat summarize
  refine ⟨rfl, ?_, ?_⟩
  · show commitAll db (compactWrites db chat summarize) = _
    by_cases h26 : 26 < countValid db chat
    · cases hb : compactBatch db chat with
      | nil =>
        rw [compactWrites, if_pos h26, hb, check_and_compact, if_pos h26, hb]
        rfl
      | cons b bs =>
        rw [compactWrites, if_pos h26, hb, check_and_compact, if_pos h26, hb]
        rfl
    · rw [compactWrites, if_neg h26, check_and_compact, if_neg h26]
      rfl
  · by_cases h26 : 26 < countValid db chat
    · cases hb : compactBatch db chat with
      | nil =>
        left
        rw [check_and_compact, if_pos h26, hb]
      | cons b bs =>
        right
        refine ⟨⟨chat, summarize (b :: bs), b.id,
          ((b :: bs).getLast (List.cons_ne_nil b bs)).id⟩,
          (b :: bs).map (fun m => m.id), ?_⟩
        rw [check_and_compact, if_pos h26, hb, commitAll_pair]
    · left
      exact check_and_compact_noop summarize (Nat.not_lt.mp h26)

theorem invalid_flip_eq {m : Message} (h : m.is_valid = false) :
    { m with is_valid := false } = m := by
  cases m
  simp_all

/-- C5: every turn is created valid by add_message; check_and_compact
only ever maps a turn to itself or, when it was valid, to the same turn
with the flag flipped to false (never false back to true); and every
selection query — the valid-row filter, the compaction batch, and the
history fetch — excludes invalid turns. -/
theorem C5_validity_one_way :
    (∀ (db : DB) (newId ts : Nat) (chat ch role content : String),
      (add_message db newId ts chat ch role content).messages =
        db.messages ++
          [{ id := newId, chat_id := chat, channel := ch, role := role,
             content := content, timestamp := ts, is_valid := true }]) ∧
    (∀ (db : DB) (chat : String) (summarize : List Message → String),
      ∃ g : Message → Message,
        (check_and_compact db chat summarize).messages = db.messages.map g ∧
        ∀ m : Message,
          g m = m ∨ (m.is_valid = true ∧ g m = { m with is_valid := false })) ∧
    (∀ (db : DB) (chat : String) (m : Message),
      m ∈ validFor db chat → m.is_valid = true) ∧
    (∀ (db : DB) (chat : String) (m : Message),
      m ∈ compactBatch db chat → m.is_valid = true) ∧
    (∀ (db : DB) (chat : String) (limit : Nat) (m : Message),
      m ∈ historyFetch db chat limit → m.is_valid = true) := by
  have hvalid : ∀ (db : DB) (chat : String) (m : Message),
      m ∈ validFor db chat → m.is_valid = true := by
    intro db chat m hm
    have hp := (List.mem_filter.mp hm).2
    simp [validPred] at hp
    exact hp.2
  have hbatch : ∀ (db : DB) (chat : String) (m : Message),
      m ∈ compactBatch db chat → m.is_valid = true := by
    intro db chat m hm
    have h1 : m ∈ sortByTs (validFor db chat) := List.take_subset _ _ hm
    exact hvalid db chat m (mem_sortByTs.mp h1)
  refine ⟨fun _ _ _ _ _ _ _ => rfl, ?_, hvalid, hbatch, ?_⟩
  · intro db chat summarize
    by_cases h26 : 26 < countValid db chat
    · cases hb : compactBatch db chat with
      | nil =>
        refine ⟨id, ?_, fun m => Or.inl rfl⟩
        rw [check_and_compact, if_pos h26, hb, List.map_id]
      | cons b bs =>
        refine ⟨fun m => if ((b :: bs).map (fun m => m.id)).contains m.id then
          { m with is_valid := false } else m, ?_, ?_⟩
        · rw [check_and_compact, if_pos h26, hb]
          rfl
        · intro m
          by_cases hc : ((b :: bs).map (fun m => m.id)).contains m.id
          · by_cases hv : m.is_valid
            · exact Or.inr ⟨hv, if_pos hc⟩
            · left
              exact (if_pos hc).trans (invalid_flip_eq (Bool.eq_false_iff.mpr hv))
          · left
            exact if_neg hc
    · refine ⟨id, ?_, fun m => Or.inl rfl⟩
      rw [check_and_compact_noop summarize (Nat.not_lt.mp h26), List.map_id]
  · intro db chat limit m hm
    have h1 : m ∈ (sortByTs (validFor db chat)).reverse := List.take_subset _ _ hm
    exact hvalid db chat m (mem_sortByTs.mp (List.mem_reverse.mp h1))

/-- Witness for C5: the exclusion clause applied to a concrete valid row
of the sample conversation. -/
theorem C5_validity_one_way_witness : (sampleMsg 0).is_valid = true :=
  C5_validity_one_way.2.2.1 sampleDB "c" (sampleMsg 0) (by decide)

/-!
### Theorems: outbound delivery, retries, typing indicator
-/

theorem attemptLoop_succ (i : Nat) (rs : Nat → HttpResult) (k : Nat) :
    attemptLoop i rs (k+1) =
      match rs 0 with
      | HttpResult.ok => (true, [Ev.post i])
      | HttpResult.rateLimited ra =>
        ((attemptLoop i (fun a => rs (a+1)) k).1,
          Ev.post i :: Ev.logWarn :: Ev.sleep (ra.getD 1) ::
            (attemptLoop i (fun a => rs (a+1)) k).2)
      | HttpResult.err =>
        if k = 0 then (false, [Ev.post i, Ev.logError])
        else
          ((attemptLoop i (fun a => rs (a+1)) k).1,
            Ev.post i :: Ev.sleep 1 :: (attemptLoop i (fun a => rs (a+1)) k).2) := rfl

theorem attemptLoop_ok (i : Nat) (rs : Nat → HttpResult) (k : Nat)
    (h : rs 0 = HttpResult.ok) :
    attemptLoop i rs (k+1) = (true, [Ev.post i]) := by
  rw [attemptLoop_succ, h]

theorem attemptLoop_rateLimited (i : Nat) (rs : Nat → HttpResult) (k : Nat)
    (ra : Option ℚ) (h : rs 0 = HttpResult.rateLimited ra) :
    attemptLoop i rs (k+1) =
      ((attemptLoop i (fun a => rs (a+1)) k).1,
        Ev.post i :: Ev.logWarn :: Ev.sleep (ra.getD 1) ::
          (attemptLoop i (fun a => rs (a+1)) k).2) := by
  rw [attemptLoop_succ, h]

theorem attemptLoop_err_last (i : Nat) (rs : Nat → HttpResult)
    (h : rs 0 = HttpResult.err) :
    attemptLoop i rs 1 = (false, [Ev.post i, Ev.logError]) := by
  rw [attemptLoop_succ, h]
  rfl

theorem attemptLoop_err_retry (i : Nat) (rs : Nat → HttpResult) (k : Nat)
    (h : rs 0 = HttpResult.err) :
    attemptLoop i rs (k+2) =
      ((attemptLoop i (fun a => rs (a+1)) (k+1)).1,
        Ev.post i :: Ev.sleep 1 :: (attemptLoop i (fun a => rs (a+1)) (k+1)).2) := by
  rw [attemptLoop_succ, h]
  rw [if_neg (Nat.succ_ne_zero k)]

theorem attemptLoop_post_count (i : Nat) :
    ∀ (k : Nat) (rs : Nat → HttpResult),
      ((attemptLoop i rs k).2.countP (· == Ev.post i)) ≤ k := by
  intro k
  induction k with
  | zero => intro rs; simp [attemptLoop]
  | succ n ih =>
    intro rs
    cases h : rs 0 with
    | ok =>
      rw [attemptLoop_ok i rs n h]
      simp [List.countP_cons]
    | rateLimited ra =>
      rw [attemptLoop_rateLimited i rs n ra h]
      have hr := ih (fun a => rs (a+1))
      simp only [List.countP_cons]
      simp
      omega
    | err =>
      cases n with
      | zero =>
        rw [attemptLoop_err_last i rs h]
        simp [List.countP_cons]
      | succ m =>
        rw [attemptLoop_err_retry i rs m h]
        have hr := ih (fun a => rs (a+1))
        simp only [List.countP_cons]
        simp
        omega

theorem attemptLoop_fail_logged (i : Nat) :
    ∀ (k : Nat) (rs : Nat → HttpResult), 0 < k →
      (attemptLoop i rs k).1 = false →
      Ev.logWarn ∈ (attemptLoop i rs k).2 ∨ Ev.logError ∈ (attemptLoop i rs k).2 := by
  intro k
  induction k with
  | zero => intro rs h; omega
  | succ n ih =>
    intro rs _ hfail
    cases h : rs 0 with
    | ok =>
      rw [attemptLoop_ok i rs n h] at hfail
      simp at hfail
    | rateLimited ra =>
      rw [attemptLoop_rateLimited i rs n ra h]
      left
      simp
    | err =>
      cases n with
      | zero =>
        rw [attemptLoop_err_last i rs h]
        right
        simp
      | succ m =>
        rw [attemptLoop_err_retry i rs m h] at hfail ⊢
        have hrec := ih (fun a => rs (a+1)) (by omega) hfail
        rcases hrec with hr | hr
        · left; simp [hr]
        · right; simp [hr]

theorem attemptLoop_no_ok_fails (i : Nat) :
    ∀ (k : Nat) (rs : Nat → HttpResult), (∀ a, rs a ≠ HttpResult.ok) →
      (attemptLoop i rs k).1 = false := by
  intro k
  induction k with
  | zero => intro rs _; rfl
  | succ n ih =>
    intro rs hno
    cases h : rs 0 with
    | ok => exact absurd h (hno 0)
    | rateLimited ra =>
      rw [attemptLoop_rateLimited i rs n ra h]
      exact ih (fun a => rs (a+1)) (fun a => hno (a+1))
    | err =>
      cases n with
      | zero => rw [attemptLoop_err_last i rs h]
      | succ m =>
        rw [attemptLoop_err_retry i rs m h]
        exact ih (fun a => rs (a+1)) (fun a => hno (a+1))

theorem attemptLoop_post_tag (i : Nat) :
    ∀ (k : Nat) (rs : Nat → HttpResult) (j : Nat),
      Ev.post j ∈ (attemptLoop i rs k).2 → j = i := by
  intro k
  induction k with
  | zero => intro rs j h; simp [attemptLoop] at h
  | succ n ih =>
    intro rs j hmem
    cases h : rs 0 with
    | ok =>
      rw [attemptLoop_ok i rs n h] at hmem
      simp at hmem
      exact hmem
    | rateLimited ra =>
      rw [attemptLoop_rateLimited i rs n ra h] at hmem
      simp at hmem
      rcases hmem with hm | hm
      · exact hm
      · exact ih (fun a => rs (a+1)) j (by simpa using hm)
    | err =>
      cases n with
      | zero =>
        rw [attemptLoop_err_last i rs h] at hmem
        simp at hmem
        exact hmem
      | succ m =>
        rw [attemptLoop_err_retry i rs m h] at hmem
        simp at hmem
        rcases hmem with hm | hm
        · exact hm
        · exact ih (fun a => rs (a+1)) j (by simpa using hm)

/-- C6: each chunk is attempted at most 3 times; a 429 response logs a
warning and sleeps the server retry_after (or the 1.0 fallback) before
retrying; if no attempt succeeds the chunk delivery returns False with a
log entry and without raising; on a failed chunk the remaining chunks of
the message are abandoned (their events are exactly the failed payload's
events, which never post any other chunk); and send still completes,
running its finally block. -/
theorem C6_rate_limit_retry :
    (∀ (i : Nat) (rs : Nat → HttpResult),
      ((_send_payload true i rs).2.countP (· == Ev.post i)) ≤ 3) ∧
    (∀ (i : Nat) (rs : Nat → HttpResult) (ra : Option ℚ),
      rs 0 = HttpResult.rateLimited ra →
      _send_payload true i rs =
        ((attemptLoop i (fun a => rs (a+1)) 2).1,
          Ev.post i :: Ev.logWarn :: Ev.sleep (ra.getD 1) ::
            (attemptLoop i (fun a => rs (a+1)) 2).2)) ∧
    (∀ (i : Nat) (rs : Nat → HttpResult), (∀ a, rs a ≠ HttpResult.ok) →
      (_send_payload true i rs).1 = false) ∧
    (∀ (i : Nat) (rs : Nat → HttpResult), (_send_payload true i rs).1 = false →
      Ev.logWarn ∈ (_send_payload true i rs).2 ∨
        Ev.logError ∈ (_send_payload true i rs).2) ∧
    (∀ (rs : Nat → Nat → HttpResult) (i : Nat) (c : List Char)
        (cs : List (List Char)),
      (_send_payload true i (rs i)).1 = false →
      deliverChunks rs i (c :: cs) = (_send_payload true i (rs i)).2) ∧
    (∀ (i : Nat) (rs : Nat → HttpResult) (j : Nat),
      Ev.post j ∈ (_send_payload true i rs).2 → j = i) ∧
    (∀ (tasks : String → Option Nat) (msg : OutboundMessage)
        (rs : Nat → Nat → HttpResult),
      send true tasks msg rs =
        ((stop_typing tasks msg.chat_id).1,
          deliverChunks rs 0 (_split_message MAX_MESSAGE_LEN msg.content) ++
            (stop_typing tasks msg.chat_id).2)) := by
  refine ⟨?_, ?_, ?_, ?_, ?_, ?_, fun _ _ _ => rfl⟩
  · intro i rs
    exact attemptLoop_post_count i 3 rs
  · intro i rs ra h
    show attemptLoop i rs 3 = _
    exact attemptLoop_rateLimited i rs 2 ra h
  · intro i rs hno
    exact attemptLoop_no_ok_fails i 3 rs hno
  · intro i rs hfail
    exact attemptLoop_fail_logged i 3 rs (by omega) hfail
  · intro rs i c cs hfail
    unfold deliverChunks
    rw [if_neg (by rw [hfail]; exact Bool.false_ne_true)]
  · intro i rs j hmem
    exact attemptLoop_post_tag i 3 rs j hmem

/-- Witness for C6: a payload whose three attempts all error returns
False. -/
theorem C6_rate_limit_retry_witness :
    (_send_payload true 0 (fun _ => HttpResult.err)).1 = false :=
  C6_rate_limit_retry.2.2.1 0 (fun _ => HttpResult.err)
    (fun _ h => HttpResult.noConfusion h)

/-- C9 counterexample: when the HTTP client is uninitialized, send
returns before the try/finally, leaving the typing task for the
message's conversation in the map and uncancelled — the claim fails on
this exit path. -/
theorem C9_counterexample :
    (send false tasks1 msg1 rsOk).1 "c1" = some 5 ∧
    Ev.cancelTyping 5 ∉ (send false tasks1 msg1 rsOk).2 := by
  constructor
  · rfl
  · decide

/-- C9 (amended): whenever the HTTP client is initialized — which covers
every delivery path: success, partial or total failure, and empty
content — send ends with the conversation's typing task removed from the
map and cancelled if one existed. -/
theorem C9_send_stops_typing :
    ∀ (tasks : String → Option Nat) (msg : OutboundMessage)
      (rs : Nat → Nat → HttpResult),
      (send true tasks msg rs).1 msg.chat_id = none ∧
      (∀ t, tasks msg.chat_id = some t →
        Ev.cancelTyping t ∈ (send true tasks msg rs).2) := by
  intro tasks msg rs
  constructor
  · show (stop_typing tasks msg.chat_id).1 msg.chat_id = none
    unfold stop_typing
    cases h : tasks msg.chat_id with
    | none => exact h
    | some t => exact if_pos rfl
  · intro t ht
    show Ev.cancelTyping t ∈
      deliverChunks rs 0 (_split_message MAX_MESSAGE_LEN msg.content) ++
        (stop_typing tasks msg.chat_id).2
    apply List.mem_append_right
    unfold stop_typing
    rw [ht]
    simp

/-- Witness for C9: the amended theorem at the concrete task map holding
task 5 for conversation c1. -/
theorem C9_send_stops_typing_witness :
    (send true tasks1 msg1 rsOk).1 "c1" = none ∧
    Ev.cancelTyping 5 ∈ (send true tasks1 msg1 rsOk).2 :=
  ⟨(C9_send_stops_typing tasks1 msg1 rsOk).1,
    (C9_send_stops_typing tasks1 msg1 rsOk).2 5 rfl⟩

/-!
### Theorems: gateway session, reconnection, heartbeat
-/

theorem gatewayExit_cons (f : Frame) (fs : List Frame) (e : Bool) :
    gatewayExit (f :: fs) e =
      if f.op = 7 ∨ f.op = 9 then GwExit.brk else gatewayExit fs e := rfl

theorem ingressTrace_cons (fs : List Frame) (e : Bool)
    (rest : List (List Frame × Bool)) :
    ingressTrace ((fs, e) :: rest) =
      IngAct.connect ::
        (match gatewayExit fs e with
         | GwExit.err => IngAct.sleep5 :: ingressTrace rest
         | _ => ingressTrace rest) := rfl

/-- C7 counterexample: a session receiving a reconnect frame (opcode 7)
is followed by an immediate new connection attempt with no 5-second
sleep anywhere in the trace — the gateway loop breaks out normally, and
the 5-second delay only guards the exception path, so the claim that
the client returns to connecting only after the fixed delay is false. -/
theorem C7_counterexample :
    ingressTrace [([frame7], false), ([], false)] =
      [IngAct.connect, IngAct.connect] ∧
    IngAct.sleep5 ∉ ingressTrace [([frame7], false), ([], false)] := by
  constructor
  · rfl
  · decide

/-- C7 (amended): opcode 7 or 9 ends the current session (the loop
breaks regardless of the remaining frames) and the client reconnects
immediately with no delay; only a session that ends in a gateway error
or abnormal socket closure is followed by the 5-second sleep before the
next connection attempt. -/
theorem C7_reconnect_behavior :
    (∀ (f : Frame) (fs : List Frame) (e : Bool), f.op = 7 ∨ f.op = 9 →
      gatewayExit (f :: fs) e = GwExit.brk) ∧
    (∀ (fs : List Frame) (e : Bool) (rest : List (List Frame × Bool)),
      gatewayExit fs e ≠ GwExit.err →
      ingressTrace ((fs, e) :: rest) = IngAct.connect :: ingressTrace rest) ∧
    (∀ (fs : List Frame) (e : Bool) (rest : List (List Frame × Bool)),
      gatewayExit fs e = GwExit.err →
      ingressTrace ((fs, e) :: rest) =
        IngAct.connect :: IngAct.sleep5 :: ingressTrace rest) ∧
    (∀ fs : List Frame, (∀ f ∈ fs, f.op ≠ 7 ∧ f.op ≠ 9) →
      gatewayExit fs true = GwExit.err) := by
  refine ⟨?_, ?_, ?_, ?_⟩
  · intro f fs e h
    rw [gatewayExit_cons, if_pos h]
  · intro fs e rest h
    rw [ingressTrace_cons]
    cases hg : gatewayExit fs e with
    | brk => rfl
    | closed => rfl
    | err => exact absurd hg h
  · intro fs e rest h
    rw [ingressTrace_cons, h]
  · intro fs h
    induction fs with
    | nil => rfl
    | cons f fs ih =>
      have hf := h f (by simp)
      rw [gatewayExit_cons, if_neg (fun hor => hor.elim hf.1 hf.2)]
      exact ih (fun g hg => h g (by simp [hg]))

/-- Witness for C7: the amended theorem applied at a concrete opcode-7
session. -/
theorem C7_reconnect_behavior_witness :
    gatewayExit [frame7] false = GwExit.brk ∧
    ingressTrace [([frame7], false), ([], false)] =
      IngAct.connect :: ingressTrace [([], false)] :=
  ⟨C7_reconnect_behavior.1 frame7 [] false (Or.inl rfl),
   C7_reconnect_behavior.2.1 [frame7] false [([], false)] (by decide)⟩

theorem stepFrame_fst (st : GwState) (f : Frame) :
    (stepFrame st f).1 =
      match f.s with
      | some n => { seq := some n }
      | none => st := by
  simp only [stepFrame]
  split_ifs <;> rfl

/-- C8: the last-seen sequence number is updated from every frame whose
sequence field is present and untouched otherwise; a hello frame (op 10)
starts the heartbeat with heartbeat_interval (default 45000 ms) divided
by 1000 and then sends identify, in that order; the heartbeat task sends
a beat carrying the sequence seen at each tick, stops immediately when a
send fails, and otherwise sleeps exactly the interval between beats. -/
theorem C8_hello_heartbeat :
    (∀ (st : GwState) (f : Frame) (n : Int), f.s = some n →
      (stepFrame st f).1.seq = some n) ∧
    (∀ (st : GwState) (f : Frame), f.s = none →
      (stepFrame st f).1.seq = st.seq) ∧
    (∀ (st : GwState) (f : Frame), f.op = 10 →
      (stepFrame st f).2 =
        [GwAct.startHeartbeat ((f.heartbeatIntervalMs.getD 45000) / 1000),
         GwAct.identify]) ∧
    (∀ (interval : ℚ) (seqAt : Nat → Option Int) (sendOk : Nat → Bool) (k : Nat),
      sendOk 0 = false →
      heartbeatTrace interval seqAt sendOk (k+1) = [HbAct.beat (seqAt 0)]) ∧
    (∀ (interval : ℚ) (k : Nat) (seqAt : Nat → Option Int) (sendOk : Nat → Bool),
      (∀ j, sendOk j = true) →
      heartbeatTrace interval seqAt sendOk k =
        ((List.range k).map
          (fun j => [HbAct.beat (seqAt j), HbAct.sleepI interval])).flatten) := by
  refine ⟨?_, ?_, ?_, ?_, ?_⟩
  · intro st f n h
    rw [stepFrame_fst, h]
  · intro st f h
    rw [stepFrame_fst, h]
  · intro st f h
    simp [stepFrame, h]
  · intro interval seqAt sendOk k h
    show HbAct.beat (seqAt 0) :: (if sendOk 0 then _ else []) = _
    rw [if_neg (by rw [h]; exact Bool.false_ne_true)]
  · intro interval k
    induction k with
    | zero => intro seqAt sendOk _; rfl
    | succ n ih =>
      intro seqAt sendOk hok
      show HbAct.beat (seqAt 0) ::
        (if sendOk 0 then HbAct.sleepI interval ::
          heartbeatTrace interval (fun j => seqAt (j+1)) (fun j => sendOk (j+1)) n
        else []) = _
      rw [if_pos (hok 0)]
      rw [ih (fun j => seqAt (j+1)) (fun j => sendOk (j+1)) (fun j => hok (j+1))]
      rw [List.range_succ_eq_map]
      simp [List.map_map, Function.comp_def, Nat.succ_eq_add_one]

/-- Witness for C8: the heartbeat stops right after a failed send. -/
theorem C8_hello_heartbeat_witness :
    heartbeatTrace 45 (fun _ => none) (fun _ => false) 1 = [HbAct.beat none] :=
  C8_hello_heartbeat.2.2.2.1 45 (fun _ => none) (fun _ => false) 0 rfl

/-!
### Theorems: inbound message conversion
-/

/-- C10: every InboundMessage the handler publishes has non-empty
content (falling back to the placeholder when the text and the
attachments contribute nothing) and non-empty sender and chat
identifiers; events missing either identifier (or from bot authors) are
dropped without publishing. -/
theorem C10_inbound_nonempty :
    (∀ (httpInit : Bool) (dl : Nat → Bool) (p : DiscordPayload)
        (msg : InboundMessage),
      _handle_message_create httpInit dl p = some msg →
      msg.content ≠ "" ∧ msg.sender_id ≠ "" ∧ msg.chat_id ≠ "") ∧
    (∀ (httpInit : Bool) (dl : Nat → Bool) (p : DiscordPayload),
      p.authorId = "" ∨ p.channelId = "" →
      _handle_message_create httpInit dl p = none) ∧
    (∀ (httpInit : Bool) (dl : Nat → Bool) (p : DiscordPayload)
        (msg : InboundMessage),
      p.content = "" → p.attachments = [] →
      _handle_message_create httpInit dl p = some msg →
      msg.content = "[empty message]") := by
  refine ⟨?_, ?_, ?_⟩
  · intro httpInit dl p msg heq
    by_cases hbot : p.authorBot
    · simp [_handle_message_create, hbot] at heq
    · by_cases hid : p.authorId = "" ∨ p.channelId = ""
      · simp [_handle_message_create, hbot, hid] at heq
      · simp only [_handle_message_create, if_neg hbot, if_neg hid,
          Option.some.injEq] at heq
        subst heq
        push_neg at hid
        refine ⟨?_, hid.1, hid.2⟩
        by_cases hj : String.intercalate "\n"
            (((if p.content = "" then [] else [p.content]) ++
              ((p.attachments.enum.map
                (fun ia => attachmentResult httpInit (dl ia.1) ia.2)).map
                  Prod.fst).flatten).filter (fun s => s ≠ "")) = ""
        · simp only [hj, if_pos]
          decide
        · simp only [if_neg hj]
          exact hj
  · intro httpInit dl p h
    by_cases hbot : p.authorBot
    · simp [_handle_message_create, hbot]
    · simp [_handle_message_create, hbot, h]
  · intro httpInit dl p msg hc hatt heq
    by_cases hbot : p.authorBot
    · simp [_handle_message_create, hbot] at heq
    · by_cases hid : p.authorId = "" ∨ p.channelId = ""
      · simp [_handle_message_create, hbot, hid] at heq
      · simp only [_handle_message_create, if_neg hbot, if_neg hid,
          Option.some.injEq] at heq
        subst heq
        simp [hc, hatt, String.intercalate]

/-- Witness for C10: the concrete empty-text, no-attachment payload
publishes the placeholder content. -/
theorem C10_inbound_nonempty_witness :
    (⟨"u", "alice", "ch", "[empty message]", [], "discord"⟩ :
      InboundMessage).content = "[empty message]" :=
  C10_inbound_nonempty.2.2 true (fun _ => true) payload0 _ rfl rfl rfl

end Fergusson
